import Mathlib

/-!
# SafeQL: verified model of the refinement engine

A shallow embedding, in Lean 4, of the parts of the SafeQL repository
(`src/safeql/{refine,score,search,cache}.rs`, `src/gucs/parser.rs`) that the
specification's claims are about, together with theorems settling each claim.

Modelling conventions:
* `f32`/`f64` values flowing through the cost computations are modelled as exact
  rationals (`ℚ`); the concrete values used in counterexamples are exactly
  representable in `f32`, so the rational model agrees with the float
  computation there.
* Rust's float-to-int cast `x as i32` is truncation toward zero, saturating at
  the `i32` range (`castF32ToI32`).
* SPI calls into the catalog (similarity queries) are external oracles: each
  modelled function takes the relevant relation / query result as an explicit
  argument and applies the `ORDER BY` / `LIMIT` / grouping logic that the SQL
  text and the Rust post-processing perform.
* PostgreSQL parse trees are modelled by the `Node` mutual inductive; `NULL`
  child pointers are the `Node.null` constructor.
-/

namespace SafeQL

/-! ## Rust numeric casts -/

def I32_MIN : Int := -(2 ^ 31)

def I32_MAX : Int := 2 ^ 31 - 1

/-- Truncation of a rational toward zero. -/
def ratTruncTowardZero (x : ℚ) : Int := if 0 ≤ x then ⌊x⌋ else -⌊-x⌋

/-- Rust `x as i32` applied to a float: truncation toward zero, saturating at
the `i32` range.  The float value is modelled as an exact rational. -/
def castF32ToI32 (x : ℚ) : Int :=
  max I32_MIN (min I32_MAX (ratTruncTowardZero x))

theorem castF32ToI32_eval (x : ℚ) (z : Int) (h0 : 0 ≤ x) (hz0 : 0 ≤ z)
    (hzM : z ≤ I32_MAX) (h1 : (z : ℚ) ≤ x) (h2 : x < z + 1) :
    castF32ToI32 x = z := by
  have hfl : ⌊x⌋ = z := by
    rw [Int.floor_eq_iff]
    exact ⟨h1, by exact_mod_cast h2⟩
  have hmin : I32_MIN ≤ z := le_trans (by norm_num [I32_MIN]) hz0
  simp [castF32ToI32, ratTruncTowardZero, if_pos h0, hfl,
    min_eq_right hzM, max_eq_right hmin]

/-! ## Kernel-reducible string helpers

The Rust code compares identifiers with `to_ascii_lowercase`, splits
schema-qualified names on `.`, and orders strings bytewise.  These are
modelled directly on the character list of a `String` so that concrete
counterexamples evaluate. -/

/-- `char::to_ascii_lowercase`. -/
def lowerChar (c : Char) : Char :=
  if 'A' ≤ c ∧ c ≤ 'Z' then Char.ofNat (c.toNat + 32) else c

/-- `str::to_ascii_lowercase`. -/
def asciiLower (s : String) : String := ⟨s.data.map lowerChar⟩

/-- Lexicographic comparison of character lists (Rust `str::cmp`, `Less`). -/
def lexLtChars : List Char → List Char → Bool
  | [], [] => false
  | [], _ :: _ => true
  | _ :: _, [] => false
  | a :: as, b :: bs => if a < b then true else if b < a then false else lexLtChars as bs

/-- Bytewise string order used by `sort_by(|a, b| a.0.cmp(&b.0))`. -/
def strLtB (a b : String) : Bool := lexLtChars a.data b.data

/-- Splitting a character list on a separator (Rust `str::split(sep)`,
PostgreSQL `string_to_array(s, sep)`). -/
def splitCharAux (sep : Char) : List Char → List Char → List String
  | [], cur => [⟨cur.reverse⟩]
  | c :: cs, cur =>
    if c = sep then (⟨cur.reverse⟩ : String) :: splitCharAux sep cs []
    else splitCharAux sep cs (c :: cur)

/-- Rust `s.split(sep)` collected into a list. -/
def splitOnChar (sep : Char) (s : String) : List String := splitCharAux sep s.data []

/-- Rust `fq.split('.')`. -/
def splitOnDot (s : String) : List String := splitOnChar '.' s

/-- Rust `parts.join(".")`. -/
def joinDot : List String → String
  | [] => ""
  | [x] => x
  | x :: y :: xs => x ++ "." ++ joinDot (y :: xs)

/-- The cost-contribution formula exactly as the specification claim words it:
`round(distance * 100 * weight)`.  This definition follows the claim's words
(for comparison against the code's formula) and is not taken from the source. -/
def specRoundCost (distance weight : ℚ) : Int := round (distance * 100 * weight)

/-! ## GUC defaults (src/gucs/parser.rs)

The shipped default values of the tunables referenced by the claims. -/

def ENABLE_OPERAND_TYPECAST_REFINEMENT_DEFAULT : Bool := false

def MAX_REFINEMENT_HOP_DEFAULT : Int := 5

def MAX_REFINEMENT_NUM_DEFAULT : Int := 300

def TOP_K_EXPANSION_DEFAULT : Nat := 3

/-! ## C1: cost model of the refinement generators (src/safeql/refine.rs)

The generators obtain similarity candidates from the Catalog Similarity
Service (an SPI oracle, passed here as an explicit list) and emit
`(cumulative_priority, mutated_tree)` pairs.  The mutated tree is represented
by an edit descriptor recording the parameters of the mutation, including the
candidate's embedding distance, so that the cost of each emitted candidate can
be related to its source candidate. -/

/-- One row of `list_tables_by_similarity`: `(fqname, distance)`. -/
structure SimilarTable where
  fq : String
  distance : ℚ
  deriving DecidableEq

/-- One row of `list_columns_by_similarity`: `(fieldname, tablename, distance)`. -/
structure SimilarColumn where
  colName : String
  tableName : String
  distance : ℚ
  deriving DecidableEq

/-- `TableInfo` as extracted from the FROM clause by `extract_all_tables_from_raw`. -/
structure TableInfo where
  tableName : String
  aliasName : Option String
  deriving DecidableEq

/-- `JoinCondition` (src/safeql/score.rs). -/
structure JoinConditionS where
  leftTable : String
  leftColumn : String
  rightTable : String
  rightColumn : String
  deriving DecidableEq

/-- Splits a list into its initial segment and last element. -/
def splitLast : List String → Option (List String × String)
  | [] => none
  | [x] => some ([], x)
  | x :: y :: xs =>
    match splitLast (y :: xs) with
    | some (init, last) => some (x :: init, last)
    | none => none

/-- `split_schema_rel` (refine.rs): split a qualified name on `.` into an
optional schema path and the relation name. -/
def split_schema_rel (fq : String) : Option (Option String × String) :=
  match splitLast (splitOnDot fq) with
  | none => none
  | some ([], rel) => some (none, rel)
  | some (init, rel) => some (some (joinDot init), rel)

/-- Edit descriptor of a table refinement candidate. -/
inductive TableEdit where
  | replaceTable (oldName newName : String) (distance : ℚ)
  deriving DecidableEq

/-- Edit descriptor of a column refinement candidate. -/
inductive ColumnEdit where
  | replaceColumn (missingCol newCol : String) (tableFilter : Option String) (distance : ℚ)
  deriving DecidableEq

/-- Edit descriptor of a join refinement candidate. -/
inductive JoinEdit where
  | addTable (table : String) (distance : ℚ)
  | addJoin (table : String) (cond : JoinConditionS) (distance : ℚ)
  deriving DecidableEq

/-- `generate_table_refinements_for_all_from_tables_raw` (refine.rs, lines
52-107).  `fromTables` is the result of `extract_all_tables_from_raw`;
`similar` is the `list_tables_by_similarity` oracle.  Per surviving candidate
the added priority is `((distance * 100.0) * weight) as i32`. -/
def generate_table_refinements_for_all_from_tables
    (fromTables : List TableInfo) (similar : String → List SimilarTable)
    (weight : ℚ) (basePriority : Int) : List (Int × TableEdit) :=
  if fromTables.isEmpty then [] else
  fromTables.foldr (fun ti acc =>
    (similar ti.tableName).foldr (fun c acc2 =>
      let candidateTable := match split_schema_rel c.fq with
        | some (_, rel) => rel
        | none => c.fq
      if asciiLower candidateTable == asciiLower ti.tableName then acc2
      else
        let additionalPriority := castF32ToI32 (c.distance * 100 * weight)
        let cumulativePriority := basePriority + additionalPriority
        match split_schema_rel c.fq with
        | some (_, rel) =>
          (cumulativePriority, TableEdit.replaceTable ti.tableName rel c.distance) :: acc2
        | none => acc2) acc) []

/-- `generate_column_refinements_raw` (refine.rs, lines 220-266).
`candidates` is the `list_columns_by_similarity` result; `actualOf` models
`find_actual_table_name` on the original tree (with its fallback to the
argument itself).  Per surviving candidate the added priority is
`((distance * 100.0) * weight) as i32`. -/
def generate_column_refinements
    (candidates : List SimilarColumn) (tableName : Option String)
    (actualOf : String → String) (missingCol : String)
    (weight : ℚ) (basePriority : Int) : List (Int × ColumnEdit) :=
  candidates.foldr (fun c acc =>
    let keep := match tableName with
      | some spec => asciiLower c.tableName == asciiLower (actualOf spec)
      | none => true
    if keep then
      (basePriority + castF32ToI32 (c.distance * 100 * weight),
        ColumnEdit.replaceColumn missingCol c.colName tableName c.distance) :: acc
    else acc) []

/-- `generate_join_refinements_raw` (refine.rs, lines 994-1058).
`columnCandidates` is `list_columns_by_similarity(None, missing_col, false)`
(used when the FROM clause is empty) and `joinable` is
`find_joinable_tables_for_column`.  In both branches the added priority is
`(((distance + 1.0) * 100.0) * weight) as i32`. -/
def generate_join_refinements
    (fromTables : List TableInfo) (columnCandidates : List SimilarColumn)
    (joinable : List (String × ℚ × List JoinConditionS))
    (weight : ℚ) (basePriority : Int) : List (Int × JoinEdit) :=
  let existingTableNames := fromTables.map (fun t => t.tableName)
  if existingTableNames.isEmpty then
    columnCandidates.foldr (fun c acc =>
      (basePriority + castF32ToI32 ((c.distance + 1) * 100 * weight),
        JoinEdit.addTable c.tableName c.distance) :: acc) []
  else
    let existingSet := existingTableNames.map asciiLower
    joinable.foldr (fun jt acc =>
      if existingSet.contains (asciiLower jt.1) then acc
      else jt.2.2.foldr (fun jc acc2 =>
        (basePriority + castF32ToI32 ((jt.2.1 + 1) * 100 * weight),
          JoinEdit.addJoin jt.1 jc jt.2.1) :: acc2) acc) []

/-- `generate_one_hop_join_refinements_for_all_tables_raw` (refine.rs, lines
941-992): joins driven purely by PK/FK structure; the added priority uses the
fixed distance `1.0`: `((1.0 * 100.0) * weight) as i32`. -/
def generate_one_hop_join_refinements
    (fromTables : List TableInfo)
    (joinable : List (String × ℚ × List JoinConditionS))
    (weight : ℚ) (basePriority : Int) : List (Int × JoinEdit) :=
  let existingTableNames := fromTables.map (fun t => t.tableName)
  if existingTableNames.isEmpty then [] else
  let existingSet := existingTableNames.map asciiLower
  joinable.foldr (fun jt acc =>
    if existingSet.contains (asciiLower jt.1) then acc
    else jt.2.2.foldr (fun jc acc2 =>
      (basePriority + castF32ToI32 ((1 : ℚ) * 100 * weight),
        JoinEdit.addJoin jt.1 jc (1 : ℚ)) :: acc2) acc) []

/-- Distance recorded in a table edit. -/
def TableEdit.dist : TableEdit → ℚ
  | .replaceTable _ _ d => d

/-- Distance recorded in a column edit. -/
def ColumnEdit.dist : ColumnEdit → ℚ
  | .replaceColumn _ _ _ d => d

/-- Distance recorded in a join edit. -/
def JoinEdit.dist : JoinEdit → ℚ
  | .addTable _ d => d
  | .addJoin _ _ d => d

/-- `List.all` is preserved through a `foldr` whose step preserves it. -/
theorem listAll_foldr {α β : Type _} (Q : β → Bool) (g : α → List β → List β)
    (l : List α) (acc : List β) (hacc : acc.all Q = true)
    (hg : ∀ a acc2, acc2.all Q = true → (g a acc2).all Q = true) :
    (l.foldr g acc).all Q = true := by
  induction l with
  | nil => exact hacc
  | cons a l ih => exact hg a _ ih

theorem castF32ToI32_trunc_5100_64 : castF32ToI32 ((51 : ℚ)/64 * 100) = 79 := by
  apply castF32ToI32_eval <;> norm_num [I32_MAX]

theorem castF32ToI32_join_zero : castF32ToI32 ((100 : ℚ) * 2) = 200 := by
  apply castF32ToI32_eval <;> norm_num [I32_MAX]

/-- C1 counterexample: the claim states each edit contributes
`round(distance * 100 * w_k)`.  (a) For a column refinement with embedding
distance `51/64` (exactly representable in `f32`) and the default column weight
`1.0`, the code's `((d * 100.0) * w) as i32` truncation yields priority `79`,
while `round(79.6875) = 80`.  (b) For a column-similarity join refinement with
distance `0` and the default join weight `2.0`, the code adds
`(((d + 1.0) * 100.0) * w) as i32 = 200`, while the claim's formula gives
`round(0) = 0`. -/
theorem c1_cost_round_counterexample :
    ((generate_column_refinements [⟨"c", "t", (51 : ℚ)/64⟩] none (fun s => s) "x" 1 0).map
        Prod.fst = [79] ∧
      specRoundCost ((51 : ℚ)/64) 1 = 80) ∧
    ((generate_join_refinements [⟨"t", none⟩] []
          [("s", (0 : ℚ), [⟨"t", "id", "s", "sid"⟩])] 2 0).map Prod.fst = [200] ∧
      specRoundCost 0 2 = 0) := by
  refine ⟨⟨?_, ?_⟩, ?_, ?_⟩
  · simp [generate_column_refinements, castF32ToI32_trunc_5100_64]
  · rw [specRoundCost, round_eq, Int.floor_eq_iff] <;> norm_num
  · have hne : ¬(asciiLower "s" = asciiLower "t") := by decide
    simp [generate_join_refinements, List.contains, hne, castF32ToI32_join_zero]
  · rw [specRoundCost, round_eq, Int.floor_eq_iff] <;> norm_num

/-- C1 (amended): every candidate emitted by the three cited generators carries
cumulative priority `base + castF32ToI32 (d * 100 * w)` where `d` is the
candidate's embedding distance — except the column-similarity join generator,
which uses `base + castF32ToI32 ((d + 1) * 100 * w)`; the PK/FK-driven one-hop
join generator uses the fixed distance `d = 1.0`.  The float-to-int conversion
truncates toward zero (saturating), it does not round. -/
theorem c1_cost_model_amended
    (fromTables : List TableInfo) (similar : String → List SimilarTable)
    (candidates : List SimilarColumn) (tableName : Option String)
    (actualOf : String → String) (missingCol : String)
    (columnCandidates : List SimilarColumn)
    (joinable : List (String × ℚ × List JoinConditionS))
    (weight : ℚ) (basePriority : Int) :
    ((generate_table_refinements_for_all_from_tables fromTables similar weight
        basePriority).all fun oc =>
      decide (oc.1 = basePriority + castF32ToI32 (oc.2.dist * 100 * weight))) = true ∧
    ((generate_column_refinements candidates tableName actualOf missingCol weight
        basePriority).all fun oc =>
      decide (oc.1 = basePriority + castF32ToI32 (oc.2.dist * 100 * weight))) = true ∧
    ((generate_join_refinements fromTables columnCandidates joinable weight
        basePriority).all fun oc =>
      decide (oc.1 = basePriority + castF32ToI32 ((oc.2.dist + 1) * 100 * weight))) = true ∧
    ((generate_one_hop_join_refinements fromTables joinable weight
        basePriority).all fun oc =>
      decide (oc.1 = basePriority + castF32ToI32 ((1 : ℚ) * 100 * weight))) = true := by
  refine ⟨?_, ?_, ?_, ?_⟩
  · rw [generate_table_refinements_for_all_from_tables]
    split
    · rfl
    · refine listAll_foldr _ _ _ _ rfl ?_
      intro ti acc2 h2
      refine listAll_foldr _ _ _ _ h2 ?_
      intro c acc3 h3
      dsimp only
      split
      · exact h3
      · split
        · simp only [List.all_cons, Bool.and_eq_true, decide_eq_true_eq]
          exact ⟨by simp [TableEdit.dist], h3⟩
        · exact h3
  · rw [generate_column_refinements]
    refine listAll_foldr _ _ _ _ rfl ?_
    intro c acc2 h2
    dsimp only
    split
    · simp only [List.all_cons, Bool.and_eq_true, decide_eq_true_eq]
      exact ⟨by simp [ColumnEdit.dist], h2⟩
    · exact h2
  · rw [generate_join_refinements]
    split
    · refine listAll_foldr _ _ _ _ rfl ?_
      intro c acc2 h2
      simp only [List.all_cons, Bool.and_eq_true, decide_eq_true_eq]
      exact ⟨by simp [JoinEdit.dist], h2⟩
    · refine listAll_foldr _ _ _ _ rfl ?_
      intro jt acc2 h2
      dsimp only
      split
      · exact h2
      · refine listAll_foldr _ _ _ _ h2 ?_
        intro jc acc3 h3
        simp only [List.all_cons, Bool.and_eq_true, decide_eq_true_eq]
        exact ⟨by simp [JoinEdit.dist], h3⟩
  · rw [generate_one_hop_join_refinements]
    split
    · rfl
    · refine listAll_foldr _ _ _ _ rfl ?_
      intro jt acc2 h2
      dsimp only
      split
      · exact h2
      · refine listAll_foldr _ _ _ _ h2 ?_
        intro jc acc3 h3
        simp only [List.all_cons, Bool.and_eq_true, decide_eq_true_eq]
        exact ⟨by simp [JoinEdit.dist], h3⟩

/-! ## C2: the Catalog Similarity Service queries (src/safeql/score.rs)

Each query runs a SQL statement over the catalog relations and post-processes
the rows in Rust.  The catalog relation (already restricted to the schemas in
`current_schemas`) is passed as the `rows` argument; the `WHERE` filters that
refer to the query parameters, the `ORDER BY`/`LIMIT` clauses, and the Rust
grouping/sorting/truncation are modelled explicitly.  Sorting is modelled by a
stable insertion sort, matching the deterministic pop order of `ORDER BY` and
`Vec::sort_by`. -/

/-- Insert into a sorted list, keeping earlier equal elements first. -/
def insertLe {α : Type _} (le : α → α → Bool) (a : α) : List α → List α
  | [] => [a]
  | x :: xs => if le a x then a :: x :: xs else x :: insertLe le a xs

/-- Insertion sort by the boolean relation `le`. -/
def sortByLe {α : Type _} (le : α → α → Bool) : List α → List α
  | [] => []
  | x :: xs => insertLe le x (sortByLe le xs)

theorem length_insertLe {α : Type _} (le : α → α → Bool) (a : α) (l : List α) :
    (insertLe le a l).length = l.length + 1 := by
  induction l with
  | nil => rfl
  | cons x xs ih =>
    rw [insertLe]
    split
    · rfl
    · simp [ih]

theorem length_sortByLe {α : Type _} (le : α → α → Bool) (l : List α) :
    (sortByLe le l).length = l.length := by
  induction l with
  | nil => rfl
  | cons x xs ih => rw [sortByLe, length_insertLe, ih, List.length_cons]

theorem mem_insertLe {α : Type _} (le : α → α → Bool) (a b : α) (l : List α) :
    b ∈ insertLe le a l ↔ b = a ∨ b ∈ l := by
  induction l with
  | nil => simp [insertLe]
  | cons x xs ih =>
    rw [insertLe]
    split
    · simp
    · simp only [List.mem_cons, ih]
      tauto

theorem mem_sortByLe {α : Type _} (le : α → α → Bool) (a : α) (l : List α) :
    a ∈ sortByLe le l ↔ a ∈ l := by
  induction l with
  | nil => simp [sortByLe]
  | cons x xs ih =>
    rw [sortByLe, mem_insertLe]
    simp [ih]

theorem pairwise_insertLe {α : Type _} (le : α → α → Bool)
    (htotal : ∀ x y, le x y = true ∨ le y x = true)
    (htrans : ∀ x y z, le x y = true → le y z = true → le x z = true)
    (a : α) (l : List α) (hl : l.Pairwise fun x y => le x y = true) :
    (insertLe le a l).Pairwise fun x y => le x y = true := by
  induction l with
  | nil => simp [insertLe]
  | cons x xs ih =>
    rw [List.pairwise_cons] at hl
    obtain ⟨hx, hxs⟩ := hl
    rw [insertLe]
    split
    · rename_i hax
      refine List.Pairwise.cons ?_ (List.Pairwise.cons hx hxs)
      intro y hy
      rcases List.mem_cons.mp hy with rfl | hy
      · exact hax
      · exact htrans a x y hax (hx y hy)
    · rename_i hax
      refine List.Pairwise.cons ?_ (ih hxs)
      intro y hy
      rcases (mem_insertLe le a y xs).mp hy with rfl | hy
      · rcases htotal x y with h | h
        · exact h
        · exact absurd h hax
      · exact hx y hy

theorem pairwise_sortByLe {α : Type _} (le : α → α → Bool)
    (htotal : ∀ x y, le x y = true ∨ le y x = true)
    (htrans : ∀ x y z, le x y = true → le y z = true → le x z = true)
    (l : List α) : (sortByLe le l).Pairwise fun x y => le x y = true := by
  induction l with
  | nil => exact List.Pairwise.nil
  | cons x xs ih => exact pairwise_insertLe le htotal htrans x _ ih

/-- Comparator by a rational key (SQL `ORDER BY distance` and Rust
`sort_by(partial_cmp)` on distances). -/
def leByKey {α : Type _} (key : α → ℚ) (a b : α) : Bool := decide (key a ≤ key b)

theorem pairwise_key_sortTake {α : Type _} (key : α → ℚ) (l : List α) (k : Nat) :
    ((sortByLe (leByKey key) l).take k).Pairwise fun a b => key a ≤ key b := by
  have hs := pairwise_sortByLe (leByKey key)
    (fun x y => by
      rcases le_total (key x) (key y) with h | h
      · exact Or.inl (by simpa [leByKey] using h)
      · exact Or.inr (by simpa [leByKey] using h))
    (fun x y z hxy hyz => by
      simp only [leByKey, decide_eq_true_eq] at hxy hyz ⊢
      exact le_trans hxy hyz) l
  have hs2 : (sortByLe (leByKey key) l).Pairwise fun a b => key a ≤ key b :=
    hs.imp (fun h => by simpa [leByKey] using h)
  exact hs2.sublist (List.take_sublist _ _)

theorem length_sortTake_le {α : Type _} (le : α → α → Bool) (l : List α) (k : Nat) :
    ((sortByLe le l).take k).length ≤ k := by
  rw [List.length_take]
  exact min_le_left _ _

/-- One row of the `list_tables_by_similarity` SQL result set before
`ORDER BY`/`LIMIT`: `(fqname, distance)` over `pg_vector_tables`. -/
structure TableSimRow where
  fqname : String
  distance : ℚ
  deriving DecidableEq

/-- `list_tables_by_similarity` (score.rs, lines 38-97): the SQL orders by
distance and applies `LIMIT top_k`; the Rust body collects the rows in order. -/
def list_tables_by_similarity (rows : List TableSimRow) (topK : Nat) :
    List TableSimRow :=
  (sortByLe (leByKey TableSimRow.distance) rows).take topK

/-- One row over `pg_vector_fields`: `(fieldname, tablename, distance)`. -/
structure ColSimRow where
  fieldname : String
  tablename : String
  distance : ℚ
  deriving DecidableEq

/-- `list_columns_by_similarity` (score.rs, lines 100-213): filters by the
`exclude_same_name` flag and (when a table is supplied and present in the
catalog) by the table, then orders by distance and applies `LIMIT top_k`. -/
def list_columns_by_similarity (rows : List ColSimRow) (tableName : Option String)
    (hasTable : Bool) (missingCol : String) (excludeSameName : Bool) (topK : Nat) :
    List ColSimRow :=
  let filtered := rows.filter fun r =>
    (!excludeSameName || !(r.fieldname == missingCol)) &&
    (match tableName with
      | some t => (hasTable && (r.tablename == t)) || !hasTable
      | none => true)
  (sortByLe (leByKey ColSimRow.distance) filtered).take topK

/-- One row over `pg_vector_functions`. -/
structure FunRow where
  functionName : String
  argTypes : String
  returnType : String
  distance : ℚ
  deriving DecidableEq

/-- The `ROW_NUMBER() OVER (PARTITION BY function_name ORDER BY distance)`
filter `rn = 1`: keep, per function name, the row with minimal distance. -/
def keepMinPerName (rows : List FunRow) : List FunRow :=
  rows.foldl (fun acc r =>
    if acc.any fun x => x.functionName == r.functionName then
      acc.map fun x =>
        if (x.functionName == r.functionName) && decide (r.distance < x.distance)
        then r else x
    else acc ++ [r]) []

/-- `find_similar_functions` (score.rs, lines 1130-1217): filter to the
requested arity and to names different from the input, keep one row per
function name, order by distance, `LIMIT top_k`, then parse the argument type
list in Rust. -/
def find_similar_functions (rows : List FunRow) (functionName : String)
    (argCount : Nat) (topK : Nat) : List (String × List String × String × ℚ) :=
  let eligible := rows.filter fun r =>
    ((splitOnChar ',' r.argTypes).length == argCount) &&
    !(r.functionName == functionName)
  ((sortByLe (leByKey FunRow.distance) (keepMinPerName eligible)).take topK).map
    fun r =>
      (r.functionName, ((splitOnChar ',' r.argTypes).map String.trim).filter
        (fun s => !s.isEmpty), r.returnType, r.distance)

/-- One row over `pg_vector_values` for the requested `(table, column)`. -/
structure ValRow where
  value : String
  distance : ℚ
  deriving DecidableEq

/-- `find_similar_values_for_literal` (score.rs, lines 1272-1358): drop empty
values, order by distance, `LIMIT top_k`, return
`(value, table, column, distance)` tuples. -/
def find_similar_values_for_literal (rows : List ValRow)
    (tableName columnName : String) (topK : Nat) :
    List (String × String × String × ℚ) :=
  ((sortByLe (leByKey ValRow.distance) (rows.filter fun r => !(r.value == ""))).take
      topK).map fun r => (r.value, tableName, columnName, r.distance)

/-- One row of the joinable-tables SQL result:
`(join_table, existing_table, fk_column, pk_column, distance)`. -/
structure JoinRow where
  joinTable : String
  existingTable : String
  fkColumn : String
  pkColumn : String
  distance : ℚ
  deriving DecidableEq

/-- The `JoinCondition` built from a row in the Rust loop. -/
def joinRowCondition (r : JoinRow) : JoinConditionS :=
  ⟨r.existingTable, r.pkColumn, r.joinTable, r.fkColumn⟩

/-- The Rust `HashMap::entry(join_table).and_modify(push).or_insert` grouping:
one entry per join table, keeping the first row's distance and collecting all
join conditions. -/
def groupJoinRows (rows : List JoinRow) : List (String × ℚ × List JoinConditionS) :=
  rows.foldl (fun acc r =>
    if acc.any fun e => e.1 == r.joinTable then
      acc.map fun e =>
        if e.1 == r.joinTable then (e.1, e.2.1, e.2.2 ++ [joinRowCondition r]) else e
    else acc ++ [(r.joinTable, r.distance, [joinRowCondition r])]) []

/-- SQL `ORDER BY column_distance, jt.join_table`. -/
def joinRowSqlLe (a b : JoinRow) : Bool :=
  decide (a.distance < b.distance) ||
    ((a.distance == b.distance) && !(strLtB b.joinTable a.joinTable))

/-- `find_joinable_tables_for_column` (score.rs, lines 460-631): the SQL orders
rows by `(column_distance, join_table)`; the Rust body groups them per join
table, sorts the grouped list by distance, and truncates to `TOP_K_EXPANSION`. -/
def find_joinable_tables_for_column (rows : List JoinRow) (topK : Nat) :
    List (String × ℚ × List JoinConditionS) :=
  let sqlRows := sortByLe joinRowSqlLe rows
  let grouped := groupJoinRows sqlRows
  (sortByLe (leByKey fun e => e.2.1) grouped).take topK

/-- One row of the `find_all_joinable_tables` SQL result (the statement emits
the constant `1.0::float4` as the distance column). -/
structure JoinRowPF where
  joinTable : String
  existingTable : String
  fkColumn : String
  pkColumn : String
  deriving DecidableEq

/-- Attach the constant distance `1.0` that the SQL emits. -/
def joinRowPFtoRow (r : JoinRowPF) : JoinRow :=
  ⟨r.joinTable, r.existingTable, r.fkColumn, r.pkColumn, 1⟩

/-- SQL `ORDER BY jt.join_table, jt.existing_table`. -/
def allJoinSqlLe (a b : JoinRowPF) : Bool :=
  strLtB a.joinTable b.joinTable ||
    (!(strLtB b.joinTable a.joinTable) && !(strLtB b.existingTable a.existingTable))

/-- `find_all_joinable_tables` (score.rs, lines 280-457): the SQL orders rows
by `(join_table, existing_table)` with constant distance `1.0`; the Rust body
groups them per join table and sorts by the table name
(`sort_by(|a, b| a.0.cmp(&b.0))`).  The `TOP_K_EXPANSION` truncation present in
the other queries is commented out in the source, so the result is unbounded. -/
def find_all_joinable_tables (rows : List JoinRowPF) :
    List (String × ℚ × List JoinConditionS) :=
  let sqlRows := sortByLe allJoinSqlLe rows
  let grouped := groupJoinRows (sqlRows.map joinRowPFtoRow)
  sortByLe (fun a b => !(strLtB b.1 a.1)) grouped

theorem mem_foldl_preserve {α β : Type _} (P : β → Prop) (step : List β → α → List β)
    (l : List α) (acc : List β) (hacc : ∀ e ∈ acc, P e)
    (hstep : ∀ a ∈ l, ∀ acc2, (∀ e ∈ acc2, P e) → ∀ e ∈ step acc2 a, P e) :
    ∀ e ∈ l.foldl step acc, P e := by
  induction l generalizing acc with
  | nil => exact hacc
  | cons a l ih =>
    exact ih _ (hstep a (List.mem_cons_self a l) acc hacc)
      (fun b hb => hstep b (List.mem_cons_of_mem a hb))

/-- Every group produced by `groupJoinRows` carries the distance of one of the
input rows. -/
theorem groupJoinRows_dist_one (rows : List JoinRow)
    (h : ∀ r ∈ rows, r.distance = 1) :
    ∀ e ∈ groupJoinRows rows, e.2.1 = 1 := by
  refine mem_foldl_preserve _ _ rows [] (by simp) ?_
  intro r hr acc2 hacc2 e he
  split at he
  · obtain ⟨x, hx, rfl⟩ := List.mem_map.mp he
    split
    · exact hacc2 x hx
    · exact hacc2 x hx
  · rcases List.mem_append.mp he with hx | hx
    · exact hacc2 e hx
    · rcases List.mem_singleton.mp hx with rfl
      exact h r hr

theorem pairwise_key_of_const {α : Type _} (key : α → ℚ) (l : List α)
    (h : ∀ a ∈ l, key a = 1) : l.Pairwise fun a b => key a ≤ key b := by
  induction l with
  | nil => exact List.Pairwise.nil
  | cons x xs ih =>
    refine List.Pairwise.cons ?_ (ih fun a ha => h a (List.mem_cons_of_mem x ha))
    intro y hy
    rw [h x (List.mem_cons_self x xs), h y (List.mem_cons_of_mem x hy)]

/-- C2 counterexample: with four PK/FK-joinable tables in the catalog and the
shipped default `TOP_K_EXPANSION = 3`, `find_all_joinable_tables` returns four
results — the `TOP_K_EXPANSION` truncation is commented out in its source, so
its result list is not bounded by `TOP_K_EXPANSION`. -/
theorem c2_top_k_counterexample :
    (find_all_joinable_tables
        [⟨"a", "e", "f", "p"⟩, ⟨"b", "e", "f", "p"⟩,
          ⟨"c", "e", "f", "p"⟩, ⟨"d", "e", "f", "p"⟩]).length = 4 ∧
    ¬((find_all_joinable_tables
        [⟨"a", "e", "f", "p"⟩, ⟨"b", "e", "f", "p"⟩,
          ⟨"c", "e", "f", "p"⟩, ⟨"d", "e", "f", "p"⟩]).length ≤
      TOP_K_EXPANSION_DEFAULT) := by
  constructor
  · decide
  · decide

/-- C2 (amended): every Catalog Similarity Service query except
`find_all_joinable_tables` returns at most `TOP_K_EXPANSION` results ordered by
ascending distance; `find_all_joinable_tables` is ordered by ascending distance
as well (all its distances are the constant `1.0`) but is not truncated to
`TOP_K_EXPANSION`. -/
theorem c2_bounded_ordered_amended
    (tableRows : List TableSimRow) (colRows : List ColSimRow)
    (funRows : List FunRow) (valRows : List ValRow) (joinRows : List JoinRow)
    (pfRows : List JoinRowPF) (tableName : Option String) (hasTable : Bool)
    (missingCol functionName tbl col : String) (excludeSameName : Bool)
    (argCount topK : Nat) :
    ((list_tables_by_similarity tableRows topK).length ≤ topK ∧
      (list_tables_by_similarity tableRows topK).Pairwise
        (fun a b => a.distance ≤ b.distance)) ∧
    ((list_columns_by_similarity colRows tableName hasTable missingCol
          excludeSameName topK).length ≤ topK ∧
      (list_columns_by_similarity colRows tableName hasTable missingCol
          excludeSameName topK).Pairwise (fun a b => a.distance ≤ b.distance)) ∧
    ((find_similar_functions funRows functionName argCount topK).length ≤ topK ∧
      (find_similar_functions funRows functionName argCount topK).Pairwise
        (fun a b => a.2.2.2 ≤ b.2.2.2)) ∧
    ((find_similar_values_for_literal valRows tbl col topK).length ≤ topK ∧
      (find_similar_values_for_literal valRows tbl col topK).Pairwise
        (fun a b => a.2.2.2 ≤ b.2.2.2)) ∧
    ((find_joinable_tables_for_column joinRows topK).length ≤ topK ∧
      (find_joinable_tables_for_column joinRows topK).Pairwise
        (fun a b => a.2.1 ≤ b.2.1)) ∧
    ((∀ e ∈ find_all_joinable_tables pfRows, e.2.1 = 1) ∧
      (find_all_joinable_tables pfRows).Pairwise (fun a b => a.2.1 ≤ b.2.1)) := by
  refine ⟨⟨?_, ?_⟩, ⟨?_, ?_⟩, ⟨?_, ?_⟩, ⟨?_, ?_⟩, ⟨?_, ?_⟩, ?_, ?_⟩
  · exact length_sortTake_le _ _ _
  · exact pairwise_key_sortTake _ _ _
  · exact length_sortTake_le _ _ _
  · exact pairwise_key_sortTake _ _ _
  · rw [find_similar_functions]
    simpa using length_sortTake_le (leByKey FunRow.distance) _ topK
  · rw [find_similar_functions]
    rw [List.pairwise_map]
    exact pairwise_key_sortTake _ _ _
  · rw [find_similar_values_for_literal]
    simpa using length_sortTake_le (leByKey ValRow.distance) _ topK
  · rw [find_similar_values_for_literal]
    rw [List.pairwise_map]
    exact pairwise_key_sortTake _ _ _
  · exact length_sortTake_le _ _ _
  · exact pairwise_key_sortTake _ _ _
  · intro e he
    rw [find_all_joinable_tables] at he
    rw [mem_sortByLe] at he
    refine groupJoinRows_dist_one _ ?_ e he
    intro r hr
    obtain ⟨x, _, rfl⟩ := List.mem_map.mp hr
    rfl
  · refine pairwise_key_of_const
      (fun e : String × ℚ × List JoinConditionS => e.2.1) _ ?_
    intro e he
    rw [find_all_joinable_tables, mem_sortByLe] at he
    refine groupJoinRows_dist_one _ ?_ e he
    intro r hr
    obtain ⟨x, _, rfl⟩ := List.mem_map.mp hr
    rfl

/-- C2 witness: the amended bound/order theorem applied at a concrete catalog
(its final two conjuncts carry membership hypotheses). -/
theorem c2_bounded_ordered_amended_witness :
    (list_tables_by_similarity [⟨"s.t", 1⟩] 3).length ≤ 3 ∧
    (∀ e ∈ find_all_joinable_tables [(⟨"a", "e", "f", "p"⟩ : JoinRowPF)], e.2.1 = 1) :=
  ⟨(c2_bounded_ordered_amended [⟨"s.t", 1⟩] [] [] [] [] [(⟨"a", "e", "f", "p"⟩ : JoinRowPF)]
      none false "" "" "" "" false 0 3).1.1,
    ((c2_bounded_ordered_amended [⟨"s.t", 1⟩] [] [] [] [] [(⟨"a", "e", "f", "p"⟩ : JoinRowPF)]
      none false "" "" "" "" false 0 3).2.2.2.2.2).1⟩

/-! ## C6/C7/C9: the shared refinement cache (src/safeql/cache.rs)

The shared-memory region is modelled as a `CacheState`: the header flags and
counters plus the occupied slots in order.  The `DefaultHasher` is passed in as
an abstract hash function; timestamps (`current_timestamp`) are passed as
`now`.  Lock acquisition (`LWLockAcquire`) is modelled as always succeeding;
payload length is the UTF-8 byte length, matching Rust's `data.len()`. -/

def ENTRY_SLOT_SIZE : Nat := 7200

/-- `size_of::<CacheEntry>()`: five 8-byte fields under `repr(C, align(8))`. -/
def CACHE_ENTRY_HEADER_SIZE : Nat := 40

def CACHE_SAFETY_MARGIN : Nat := 128

def MAX_DATA_SIZE : Nat := ENTRY_SLOT_SIZE - CACHE_ENTRY_HEADER_SIZE - CACHE_SAFETY_MARGIN

def MAX_CACHE_ENTRIES : Nat := 100000

def CACHE_CLEANUP_INTERVAL : Nat := 3600

/-- The cleanup TTL: `7 * 24 * 3600` seconds. -/
def CACHE_TTL_SECONDS : Nat := 7 * 24 * 3600

/-- One occupied cache slot. -/
structure CEntry where
  keyHash : Nat
  queryTypeHash : Nat
  createdAt : Nat
  lastAccessed : Nat
  dataLen : Nat
  data : String
  deriving DecidableEq

/-- The cache region: header flags/counters plus the occupied slots. -/
structure CacheState where
  enabled : Bool
  magicOk : Bool
  maxEntries : Nat
  entries : List CEntry
  nextCleanupTime : Nat
  deriving DecidableEq

inductive CacheError where
  | dataTooLarge
  | invalidHeader
  | cacheFullAfterCleanup
  | dataSizeValidationFailed
  deriving DecidableEq

/-- The entry scan inside `SharedMemoryCache::get`: first slot whose key hash
matches and whose stored length is valid; invalid lengths are skipped. -/
def cacheLookup (h : Nat) : List CEntry → Option String
  | [] => none
  | e :: es =>
    if e.keyHash == h then
      if e.dataLen > MAX_DATA_SIZE then cacheLookup h es else some e.data
    else cacheLookup h es

/-- `SharedMemoryCache::get` (cache.rs, lines 145-188).  Returns the value and
the (unchanged) cache state; the body takes a shared lock and only reads. -/
def cacheGet (hash : String → Nat) (s : CacheState) (cacheKey : String) :
    Option String × CacheState :=
  if !s.enabled then (none, s)
  else if !s.magicOk then (none, s)
  else (cacheLookup (hash cacheKey) s.entries, s)

/-- `SharedMemoryCache::cleanup_old_entries_unlocked` (cache.rs, lines
261-306): keep entries with `last_accessed >= now.saturating_sub(TTL)`,
compacting survivors in order. -/
def cleanup_old_entries (now : Nat) (s : CacheState) : CacheState :=
  { s with
    entries := s.entries.filter fun e => decide (now - CACHE_TTL_SECONDS ≤ e.lastAccessed),
    nextCleanupTime := now + CACHE_CLEANUP_INTERVAL }

/-- The tail of `SharedMemoryCache::set` after the conditional cleanup: fail
if still full, re-validate the size (dead re-check kept from the source), then
append the new slot with `created_at = last_accessed = now`. -/
def cacheSetAppend (hash : String → Nat) (now : Nat)
    (cacheKey queryType data : String) (s1 : CacheState) :
    Except CacheError Unit × CacheState :=
  if s1.entries.length ≥ s1.maxEntries then (Except.error CacheError.cacheFullAfterCleanup, s1)
  else if data.utf8ByteSize > MAX_DATA_SIZE then
    (Except.error CacheError.dataSizeValidationFailed, s1)
  else
    (Except.ok (),
      { s1 with entries := s1.entries ++
        [⟨hash cacheKey, hash queryType, now, now, data.utf8ByteSize, data⟩] })

/-- `SharedMemoryCache::set` (cache.rs, lines 191-258).  Disabled mode returns
success without touching anything; an oversized payload fails before the lock
is taken; a full cache is cleaned up in place (`cleanup_old_entries`) and the
call fails if it is still full; otherwise the new slot is appended. -/
def cacheSet (hash : String → Nat) (now : Nat) (s : CacheState)
    (cacheKey queryType data : String) : Except CacheError Unit × CacheState :=
  if !s.enabled then (Except.ok (), s)
  else if data.utf8ByteSize > MAX_DATA_SIZE then (Except.error CacheError.dataTooLarge, s)
  else if !s.magicOk then (Except.error CacheError.invalidHeader, s)
  else
    cacheSetAppend hash now cacheKey queryType data
      (if s.entries.length ≥ s.maxEntries then cleanup_old_entries now s else s)

/-- A cache state disabled by the `ENABLE_SEARCH_CACHE` flag, with a valid
header and no entries. -/
def c6DisabledState : CacheState := ⟨false, true, MAX_CACHE_ENTRIES, [], 0⟩

/-- A 7033-byte payload, one byte over `MAX_DATA_SIZE = 7032`. -/
def c6BigData : String := ⟨List.replicate 7033 'a'⟩

theorem utf8ByteSize_replicate (c : Char) (n : Nat) :
    String.utf8ByteSize ⟨List.replicate n c⟩ = n * c.utf8Size := by
  induction n with
  | zero =>
    show String.utf8ByteSize ⟨[]⟩ = 0 * c.utf8Size
    rw [Nat.zero_mul]
    rfl
  | succ n ih =>
    show String.utf8ByteSize ⟨List.replicate n c⟩ + c.utf8Size = _
    rw [ih, Nat.succ_mul]

theorem c6BigData_oversized : c6BigData.utf8ByteSize > MAX_DATA_SIZE := by
  rw [c6BigData, utf8ByteSize_replicate]
  have h : ('a').utf8Size = 1 := by decide
  rw [h, MAX_DATA_SIZE, ENTRY_SLOT_SIZE, CACHE_ENTRY_HEADER_SIZE, CACHE_SAFETY_MARGIN]
  norm_num

/-- C6 counterexample: the claim quantifies over every `set` call, but when the
cache-enabling flag is off, `set` with an oversized payload returns success
(`Ok`), not the dedicated error — the flag is checked before the size. -/
theorem c6_oversized_set_counterexample :
    cacheSet (fun _ => 0) 0 c6DisabledState "k" "q" c6BigData =
      (Except.ok (), c6DisabledState) ∧
    c6BigData.utf8ByteSize > MAX_DATA_SIZE ∧
    (Except.ok () : Except CacheError Unit) ≠ Except.error CacheError.dataTooLarge := by
  refine ⟨rfl, c6BigData_oversized, by simp⟩

/-- C6 (amended): whenever the cache is enabled, a `set` whose payload exceeds
`MAX_DATA_SIZE = ENTRY_SLOT_SIZE − slot-header − safety-margin` returns the
dedicated `dataTooLarge` error and leaves the cache state completely
unchanged — no slot is written, no counter changes, and the payload is never
truncated. -/
theorem c6_oversized_set_amended (hash : String → Nat) (now : Nat)
    (s : CacheState) (cacheKey queryType data : String)
    (hen : s.enabled = true) (hbig : data.utf8ByteSize > MAX_DATA_SIZE) :
    cacheSet hash now s cacheKey queryType data = (Except.error CacheError.dataTooLarge, s) ∧
    MAX_DATA_SIZE = ENTRY_SLOT_SIZE - CACHE_ENTRY_HEADER_SIZE - CACHE_SAFETY_MARGIN := by
  refine ⟨?_, rfl⟩
  rw [cacheSet, hen]
  simp [hbig]

/-- C6 amended witness: a concrete enabled state and a 7033-byte payload. -/
theorem c6_oversized_set_amended_witness :
    cacheSet (fun _ => 0) 0 ⟨true, true, MAX_CACHE_ENTRIES, [], 0⟩ "k" "q" c6BigData =
      (Except.error CacheError.dataTooLarge, ⟨true, true, MAX_CACHE_ENTRIES, [], 0⟩) :=
  (c6_oversized_set_amended (fun _ => 0) 0 ⟨true, true, MAX_CACHE_ENTRIES, [], 0⟩
    "k" "q" c6BigData rfl c6BigData_oversized).1

/-- C7: with the cache-enabling configuration flag off, every `get` misses
(returns `none`) and every `set` is a no-op returning success — never an
error — for all keys and payloads. -/
theorem c7_disabled_cache_noop (hash : String → Nat) (now : Nat) (s : CacheState)
    (cacheKey queryType data : String) (h : s.enabled = false) :
    cacheGet hash s cacheKey = (none, s) ∧
    cacheSet hash now s cacheKey queryType data = (Except.ok (), s) := by
  rw [cacheGet, cacheSet, h]
  simp

/-- C7 witness. -/
theorem c7_disabled_cache_noop_witness :
    cacheGet (fun _ => 0) c6DisabledState "k" = (none, c6DisabledState) ∧
    cacheSet (fun _ => 0) 5 c6DisabledState "k" "q" "v" = (Except.ok (), c6DisabledState) :=
  c7_disabled_cache_noop (fun _ => 0) 5 c6DisabledState "k" "q" "v" rfl

/-- Invariant: `last_accessed` equals `created_at` on every slot (it is written
once, at `set` time, and reads never update it). -/
def CacheWellFormed (s : CacheState) : Prop :=
  ∀ e ∈ s.entries, e.lastAccessed = e.createdAt

theorem cleanup_preserves_wf (now : Nat) (s : CacheState) (h : CacheWellFormed s) :
    CacheWellFormed (cleanup_old_entries now s) := by
  intro e he
  exact h e (List.mem_of_mem_filter he)

/-- C9: `get` never modifies the cache state; `set` writes `last_accessed`
once, equal to `created_at` (preserving the invariant that they agree on every
slot); consequently the TTL sweep during a full `set` drops entries by time
since insertion: under the invariant its keep-condition is exactly
`now − TTL ≤ created_at`. -/
theorem c9_get_frame_and_ttl (hash : String → Nat) (now : Nat) (s : CacheState)
    (cacheKey queryType data lookupKey : String) (hinv : CacheWellFormed s) :
    (cacheGet hash s lookupKey).2 = s ∧
    CacheWellFormed (cacheSet hash now s cacheKey queryType data).2 ∧
    (cleanup_old_entries now s).entries =
      s.entries.filter fun e => decide (now - CACHE_TTL_SECONDS ≤ e.createdAt) := by
  refine ⟨?_, ?_, ?_⟩
  · rw [cacheGet]
    split
    · rfl
    · split
      · rfl
      · rfl
  · have happ : ∀ s1 : CacheState, CacheWellFormed s1 →
        CacheWellFormed (cacheSetAppend hash now cacheKey queryType data s1).2 := by
      intro s1 hwf1
      rw [cacheSetAppend]
      split
      · exact hwf1
      · split
        · exact hwf1
        · intro e he
          rcases List.mem_append.mp he with hx | hx
          · exact hwf1 e hx
          · rcases List.mem_singleton.mp hx with rfl
            rfl
    rw [cacheSet]
    split
    · exact hinv
    · split
      · exact hinv
      · split
        · exact hinv
        · refine happ _ ?_
          split
          · exact cleanup_preserves_wf now s hinv
          · exact hinv
  · rw [cleanup_old_entries]
    exact List.filter_congr fun e he => by rw [hinv e he]

/-- C9 witness: a one-entry well-formed cache. -/
theorem c9_get_frame_and_ttl_witness :
    (cacheGet (fun _ => 0) ⟨true, true, MAX_CACHE_ENTRIES, [⟨0, 0, 3, 3, 1, "v"⟩], 0⟩ "k").2 =
      ⟨true, true, MAX_CACHE_ENTRIES, [⟨0, 0, 3, 3, 1, "v"⟩], 0⟩ :=
  (c9_get_frame_and_ttl (fun _ => 0) 9 ⟨true, true, MAX_CACHE_ENTRIES, [⟨0, 0, 3, 3, 1, "v"⟩], 0⟩
    "k" "q" "v" "k" (by intro e he; simp at he; subst he; rfl)).1

/-! ## C3/C4/C5: the search driver (src/safeql/search.rs)

`perform_refinement_search` is a best-first loop over a
`BinaryHeap<Reverse<(prio, seq, RawStmt*, hop)>>`.  Because the insertion
counter `seq` is unique, the heap's pop order is exactly the lexicographic
minimum of `(prio, seq)`; the queue is therefore modelled as a list kept
sorted by `(prio, seq)`, popped from the head.  The analyzer, the executor and
the error-classification/generator pipeline are external oracles carried in
the `SearchConfig`; trees are an abstract type `T`.  The result record also
carries ghost traces (entries popped, trees analyzed) and the queue content at
exit, used to state the claims. -/

/-- `try_execute_query`'s outcome classification (search.rs, lines 72-77 and
727-741). -/
inductive ExecOutcome where
  | success
  | execError
  | emptyResult
  | argumentFormatError
  deriving DecidableEq

/-- A priority-queue entry `(prio, seq, tree, hop_count)`. -/
structure SEntry (T : Type) where
  prio : Int
  seq : Nat
  tree : T
  hop : Int
  deriving DecidableEq

/-- The driver's fixed tunables and external oracles. -/
structure SearchConfig (T : Type) where
  maxHops : Int
  maxSearches : Int
  serialize : T → String
  analyzeOk : T → Bool
  execute : T → ExecOutcome
  expandFailure : T → Int → List (Int × T)
  expandEmpty : T → Int → List (Int × T)
  expandFormat : T → Int → List (Int × T)

/-- The mutable search state: queue (sorted by `(prio, seq)`), visited set and
insertion counter. -/
structure SearchState (T : Type) where
  pq : List (SEntry T)
  visited : List String
  seq : Nat

/-- Strictly-before order on queue entries: lexicographic `(prio, seq)`. -/
def entryBefore {T : Type} (a b : SEntry T) : Bool :=
  decide (a.prio < b.prio) || ((a.prio == b.prio) && decide (a.seq < b.seq))

/-- Insert an entry at its sorted position (models `BinaryHeap::push` up to
pop order). -/
def insertEntry {T : Type} (e : SEntry T) : List (SEntry T) → List (SEntry T)
  | [] => [e]
  | x :: xs => if entryBefore e x then e :: x :: xs else x :: insertEntry e xs

/-- `push_candidate` (search.rs, lines 1118-1138): drop when the hop count
exceeds `MAX_REFINEMENT_HOP`; serialize the tree and drop when already
visited; otherwise insert into the queue and bump the sequence counter. -/
def pushCandidate {T : Type} (cfg : SearchConfig T) (st : SearchState T)
    (prio : Int) (hop : Int) (tree : T) : SearchState T :=
  if hop > cfg.maxHops then st
  else
    let key := cfg.serialize tree
    if st.visited.contains key then st
    else
      ⟨insertEntry ⟨prio, st.seq, tree, hop⟩ st.pq, key :: st.visited, st.seq + 1⟩

/-- Push every generated `(prio, tree)` candidate in order. -/
def pushAll {T : Type} (cfg : SearchConfig T) (st : SearchState T)
    (cands : List (Int × T)) (hop : Int) : SearchState T :=
  cands.foldl (fun s c => pushCandidate cfg s c.1 hop c.2) st

/-- The outcome of a search run: the returned tree, the ghost traces of pops
and analyzer invocations, and the queue content at exit. -/
structure SearchOutcome (T : Type) where
  result : T
  analyzed : List (T × Int)
  popped : List (SEntry T)
  pqRemaining : List (SEntry T)

/-- The main loop of `perform_refinement_search` (search.rs, lines 276-628).
`remaining` counts the pops still allowed by `MAX_REFINEMENT_NUM`
(`remaining = max_searches − search_count`); when a pop finds `remaining = 0`
— i.e. `search_count > max_searches` in the source — the loop `break`s and
the original tree is returned.  A popped entry whose hop count exceeds
`max_hops` is discarded (`continue`) before analysis.  Analysis success leads
to execution; execution success returns the candidate; empty results, format
errors and analysis failures push the oracle-generated refinements at
`hop + 1` and continue; other execution errors just continue. -/
def searchLoop {T : Type} (cfg : SearchConfig T) (initTree : T) :
    Nat → SearchState T → List (T × Int) → List (SEntry T) → SearchOutcome T
  | _, ⟨[], _, _⟩, analyzed, popped => ⟨initTree, analyzed, popped, []⟩
  | 0, ⟨e :: rest, _, _⟩, analyzed, popped => ⟨initTree, analyzed, popped ++ [e], rest⟩
  | r + 1, ⟨e :: rest, visited, seq⟩, analyzed, popped =>
    if e.hop > cfg.maxHops then
      searchLoop cfg initTree r ⟨rest, visited, seq⟩ analyzed (popped ++ [e])
    else if cfg.analyzeOk e.tree then
      match cfg.execute e.tree with
      | ExecOutcome.success =>
        ⟨e.tree, analyzed ++ [(e.tree, e.hop)], popped ++ [e], rest⟩
      | ExecOutcome.argumentFormatError =>
        searchLoop cfg initTree r
          (pushAll cfg ⟨rest, visited, seq⟩ (cfg.expandFormat e.tree e.prio) (e.hop + 1))
          (analyzed ++ [(e.tree, e.hop)]) (popped ++ [e])
      | ExecOutcome.execError =>
        searchLoop cfg initTree r ⟨rest, visited, seq⟩
          (analyzed ++ [(e.tree, e.hop)]) (popped ++ [e])
      | ExecOutcome.emptyResult =>
        searchLoop cfg initTree r
          (pushAll cfg ⟨rest, visited, seq⟩ (cfg.expandEmpty e.tree e.prio) (e.hop + 1))
          (analyzed ++ [(e.tree, e.hop)]) (popped ++ [e])
    else
      searchLoop cfg initTree r
        (pushAll cfg ⟨rest, visited, seq⟩ (cfg.expandFailure e.tree e.prio) (e.hop + 1))
        (analyzed ++ [(e.tree, e.hop)]) (popped ++ [e])

/-- `perform_refinement_search` (search.rs, lines 239-628), refinement
enabled: push the parsed initial tree with cost 0 and hop 0, then run the
loop; exhaustion returns the original tree. -/
def performRefinementSearch {T : Type} (cfg : SearchConfig T) (initTree : T) :
    SearchOutcome T :=
  searchLoop cfg initTree cfg.maxSearches.toNat
    (pushCandidate cfg ⟨[], [], 0⟩ 0 0 initTree) [] []

/-- Analyzer-trace invariant: the loop only ever appends analyzed entries with
hop count within the bound. -/
theorem searchLoop_analyzed_bounded {T : Type} (cfg : SearchConfig T) (initTree : T)
    (remaining : Nat) (st : SearchState T) (analyzed : List (T × Int))
    (popped : List (SEntry T))
    (hacc : ∀ p ∈ analyzed, p.2 ≤ cfg.maxHops) :
    ∀ p ∈ (searchLoop cfg initTree remaining st analyzed popped).analyzed,
      p.2 ≤ cfg.maxHops := by
  induction remaining generalizing st analyzed popped with
  | zero =>
    obtain ⟨pq, visited, seq⟩ := st
    cases pq with
    | nil => exact hacc
    | cons e rest => exact hacc
  | succ r ih =>
    obtain ⟨pq, visited, seq⟩ := st
    cases pq with
    | nil => exact hacc
    | cons e rest =>
      rw [searchLoop]
      by_cases hhop : e.hop > cfg.maxHops
      · rw [if_pos hhop]
        exact ih _ _ _ hacc
      · rw [if_neg hhop]
        have hle : e.hop ≤ cfg.maxHops := not_lt.mp hhop
        have hacc2 : ∀ p ∈ analyzed ++ [(e.tree, e.hop)], p.2 ≤ cfg.maxHops := by
          intro p hp
          rcases List.mem_append.mp hp with h | h
          · exact hacc p h
          · rcases List.mem_singleton.mp h with rfl
            exact hle
        by_cases hana : cfg.analyzeOk e.tree
        · rw [if_pos hana]
          cases hex : cfg.execute e.tree with
          | success => exact hacc2
          | argumentFormatError => exact ih _ _ _ hacc2
          | execError => exact ih _ _ _ hacc2
          | emptyResult => exact ih _ _ _ hacc2
        · rw [if_neg hana]
          exact ih _ _ _ hacc2

/-- C3: with a fixed `max_hop` setting, no tree whose hop count exceeds
`max_hop` is ever passed to the analyzer: `push_candidate` never enqueues a
candidate with `hop_count > max_hop` (the state is unchanged), and every entry
the driver hands to the analyzer has hop count at most `max_hop` (over-bound
pops are discarded before analysis). -/
theorem c3_hop_bound {T : Type} (cfg : SearchConfig T) (initTree : T)
    (st : SearchState T) (prio hop : Int) (tree : T) (h : hop > cfg.maxHops) :
    pushCandidate cfg st prio hop tree = st ∧
    ∀ p ∈ (performRefinementSearch cfg initTree).analyzed, p.2 ≤ cfg.maxHops := by
  constructor
  · rw [pushCandidate, if_pos h]
  · exact searchLoop_analyzed_bounded cfg initTree _ _ [] [] (by simp)

/-- C3 witness: a trivial configuration over `Nat` trees with `max_hop = 5`
and an over-bound push at hop 6. -/
theorem c3_hop_bound_witness :
    pushCandidate
        ⟨5, 300, fun t => ⟨List.replicate t 'a'⟩, fun _ => false,
          fun _ => ExecOutcome.success, fun _ _ => [], fun _ _ => [], fun _ _ => []⟩
        ⟨[], [], 0⟩ 0 6 (0 : Nat) = ⟨[], [], 0⟩ :=
  (c3_hop_bound
    ⟨5, 300, fun t => ⟨List.replicate t 'a'⟩, fun _ => false,
      fun _ => ExecOutcome.success, fun _ _ => [], fun _ _ => [], fun _ _ => []⟩
    0 ⟨[], [], 0⟩ 0 6 0 (by decide)).1

/-- C5: when the refinement search ends without a candidate that both analyzes
and executes successfully — queue exhausted or expansion budget exceeded — it
returns the original tree: every run returns either the original tree or a
tree that the analyzer accepts and the executor runs with at least one row. -/
theorem c5_exhaustion_returns_original {T : Type} (cfg : SearchConfig T) (initTree : T) :
    (performRefinementSearch cfg initTree).result = initTree ∨
    (cfg.analyzeOk (performRefinementSearch cfg initTree).result = true ∧
      cfg.execute (performRefinementSearch cfg initTree).result = ExecOutcome.success) := by
  rw [performRefinementSearch]
  generalize cfg.maxSearches.toNat = remaining
  generalize pushCandidate cfg ⟨[], [], 0⟩ 0 0 initTree = st
  generalize ([] : List (T × Int)) = analyzed
  generalize ([] : List (SEntry T)) = popped
  induction remaining generalizing st analyzed popped with
  | zero =>
    obtain ⟨pq, visited, seq⟩ := st
    cases pq with
    | nil => exact Or.inl rfl
    | cons e rest => exact Or.inl rfl
  | succ r ih =>
    obtain ⟨pq, visited, seq⟩ := st
    cases pq with
    | nil => exact Or.inl rfl
    | cons e rest =>
      rw [searchLoop]
      by_cases hhop : e.hop > cfg.maxHops
      · rw [if_pos hhop]
        exact ih _ _ _
      · rw [if_neg hhop]
        by_cases hana : cfg.analyzeOk e.tree
        · rw [if_pos hana]
          cases hex : cfg.execute e.tree with
          | success =>
            refine Or.inr ⟨?_, ?_⟩
            · simpa using hana
            · simpa using hex
          | argumentFormatError => exact ih _ _ _
          | execError => exact ih _ _ _
          | emptyResult => exact ih _ _ _
        · rw [if_neg hana]
          exact ih _ _ _

/-- Concrete configuration for the C4 counterexample: every tree fails
analysis; the initial tree `0` expands into candidates `1` and `2`; the search
budget is `max_num = 1`. -/
def c4Config : SearchConfig Nat :=
  ⟨5, 1, fun t => ⟨List.replicate t 'a'⟩, fun _ => false,
    fun _ => ExecOutcome.success,
    fun t prio => if t == 0 then [(prio + 1, 1), (prio + 2, 2)] else [],
    fun _ _ => [], fun _ _ => []⟩

/-- C4 counterexample: the claim says an over-budget pop discards that entry
and continues with the next pop rather than terminating the whole search.  In
this run the first pop expands into two admissible candidates (hop 1 ≤
max_hop 5); the second pop exceeds `max_num = 1` and the code `break`s: the
search terminates returning the original tree with the third candidate still
enqueued and never popped — only two entries were ever popped. -/
theorem c4_budget_break_counterexample :
    (performRefinementSearch c4Config 0).result = 0 ∧
    (performRefinementSearch c4Config 0).pqRemaining = [⟨2, 2, 2, 1⟩] ∧
    (performRefinementSearch c4Config 0).popped.length = 2 := by
  refine ⟨?_, ?_, ?_⟩ <;> rfl

/-- C4 (amended): when a popped entry finds `hop > MAX_HOP` (with budget left),
the entry is discarded and the loop continues with the next pop; but when a
pop finds `search_count > MAX_NUM` (no budget remaining), the entire search
stops at once — the loop `break`s, returns the original tree, and leaves the
rest of the queue unpopped. -/
theorem c4_budget_break_amended {T : Type} (cfg : SearchConfig T) (initTree : T)
    (e : SEntry T) (rest : List (SEntry T)) (visited : List String) (seq : Nat)
    (r : Nat) (analyzed : List (T × Int)) (popped : List (SEntry T))
    (hhop : e.hop > cfg.maxHops) :
    searchLoop cfg initTree (r + 1) ⟨e :: rest, visited, seq⟩ analyzed popped =
      searchLoop cfg initTree r ⟨rest, visited, seq⟩ analyzed (popped ++ [e]) ∧
    searchLoop cfg initTree 0 ⟨e :: rest, visited, seq⟩ analyzed popped =
      ⟨initTree, analyzed, popped ++ [e], rest⟩ := by
  constructor
  · rw [searchLoop]
    exact if_pos hhop
  · rw [searchLoop]

/-- C4 amended witness. -/
theorem c4_budget_break_amended_witness :
    searchLoop c4Config 7 1 ⟨[⟨0, 0, 3, 6⟩], [], 1⟩ [] [] =
      searchLoop c4Config 7 0 ⟨[], [], 1⟩ [] [[⟨0, 0, 3, 6⟩]].flatten ∧
    searchLoop c4Config 7 0 ⟨[⟨0, 0, 3, 6⟩], [], 1⟩ [] [] =
      ⟨7, [], [⟨0, 0, 3, 6⟩], []⟩ := by
  have h := c4_budget_break_amended c4Config 7 ⟨0, 0, 3, 6⟩ [] [] 1 0 [] [] (by decide)
  simpa using h

/-! ## C8: the typecast mutators (src/safeql/refine.rs)

Parse trees are modelled by the mutual inductive `Node`/`NodeList`: `NULL`
child pointers are `Node.null`, node kinds the walkers do not inspect are
`Node.otherNode`, and a `FuncCall` argument list is a `NodeList`.
`all_operand_typecast_walker` (refine.rs, lines 1434-1515) wraps, at every
`A_Expr` whose configured operand is a non-cast `ColumnRef` matching the
operand descriptor, that operand in a new `TypeCast`; since a matching operand
is a leaf `ColumnRef`, the walker's continued traversal through the new cast
node is the identity there, which the structural definition below uses.
`function_typecast_walker` (refine.rs, lines 2010-2063) wraps the argument at
the target index of the `FuncCall` whose source location matches the error
position and then skips that call's children (it returns early), while the
traversal continues elsewhere. -/

mutual
inductive Node where
  | null : Node
  | columnRef (fields : List String) : Node
  | aExpr (opname : String) (lexpr : Node) (rexpr : Node) (loc : Int) : Node
  | typeCast (arg : Node) (tyname : String) : Node
  | funcCall (fname : String) (args : NodeList) (loc : Int) : Node
  | aConst (v : String) : Node
  | otherNode : Node
inductive NodeList where
  | nil : NodeList
  | cons (head : Node) (tail : NodeList) : NodeList
end

def NodeList.length : NodeList → Nat
  | .nil => 0
  | .cons _ t => t.length + 1

def NodeList.getAt : NodeList → Nat → Option Node
  | .nil, _ => none
  | .cons h _, 0 => some h
  | .cons _ t, n + 1 => t.getAt n

def NodeList.wrapAt : NodeList → Nat → String → NodeList
  | .nil, _, _ => .nil
  | .cons h t, 0, ty => .cons (.typeCast h ty) t
  | .cons h t, n + 1, ty => .cons h (t.wrapAt n ty)

def NodeList.isNil : NodeList → Bool
  | .nil => true
  | .cons _ _ => false

def Node.isTypeCast : Node → Bool
  | .typeCast _ _ => true
  | _ => false

def Node.isNull : Node → Bool
  | .null => true
  | _ => false

structure ColumnOperand where
  tableName : Option String
  columnName : String

inductive OperandPos where
  | left
  | right
  deriving DecidableEq

def lastStr : List String → Option String
  | [] => none
  | [x] => some x
  | _ :: y :: xs => lastStr (y :: xs)

/-- The ColumnRef-matching logic of `all_operand_typecast_walker`. -/
def operandMatches (o : ColumnOperand) : Node → Bool
  | .columnRef fields =>
    match o.tableName with
    | some t =>
      if 2 ≤ fields.length then
        match fields, lastStr fields with
        | f :: _, some l =>
          (asciiLower f == asciiLower t) && (asciiLower l == asciiLower o.columnName)
        | _, _ => false
      else false
    | none =>
      match fields with
      | [c] => asciiLower c == asciiLower o.columnName
      | _ => false
  | _ => false

/-- Whether the walker wraps this operand node. -/
def wrapApplies (op : Option ColumnOperand) (n : Node) : Bool :=
  !n.isNull && !n.isTypeCast &&
    (match op with
      | some o => operandMatches o n
      | none => false)

mutual
/-- `all_operand_typecast_walker` applied through the whole tree. -/
def opTcNode (op : Option ColumnOperand) (ty : String) (pos : OperandPos) : Node → Node
  | .aExpr nm l r loc =>
    .aExpr nm
      (if (pos == OperandPos.left) && wrapApplies op l then Node.typeCast l ty
        else opTcNode op ty pos l)
      (if (pos == OperandPos.right) && wrapApplies op r then Node.typeCast r ty
        else opTcNode op ty pos r)
      loc
  | .typeCast a t2 => .typeCast (opTcNode op ty pos a) t2
  | .funcCall f args loc => .funcCall f (opTcList op ty pos args) loc
  | .columnRef fields => .columnRef fields
  | .null => .null
  | .aConst v => .aConst v
  | .otherNode => .otherNode
def opTcList (op : Option ColumnOperand) (ty : String) (pos : OperandPos) :
    NodeList → NodeList
  | .nil => .nil
  | .cons h t => .cons (opTcNode op ty pos h) (opTcList op ty pos t)
end

theorem opTc_isTypeCast (op : Option ColumnOperand) (ty : String) (pos : OperandPos)
    (n : Node) : (opTcNode op ty pos n).isTypeCast = n.isTypeCast := by
  cases n <;> rfl

theorem opTc_isNull (op : Option ColumnOperand) (ty : String) (pos : OperandPos)
    (n : Node) : (opTcNode op ty pos n).isNull = n.isNull := by
  cases n <;> rfl

theorem operandMatches_opTc (o : ColumnOperand) (op : Option ColumnOperand)
    (ty : String) (pos : OperandPos) (n : Node) :
    operandMatches o (opTcNode op ty pos n) = operandMatches o n := by
  cases n <;> rfl

theorem wrapApplies_opTc (op : Option ColumnOperand) (ty : String) (pos : OperandPos)
    (n : Node) : wrapApplies op (opTcNode op ty pos n) = wrapApplies op n := by
  rw [wrapApplies.eq_def, wrapApplies.eq_def, opTc_isTypeCast, opTc_isNull]
  cases op with
  | none => rfl
  | some o => simp [operandMatches_opTc]

theorem opTc_of_wrapApplies (op : Option ColumnOperand) (ty : String) (pos : OperandPos)
    (n : Node) (h : wrapApplies op n = true) : opTcNode op ty pos n = n := by
  cases n with
  | columnRef fields => rfl
  | null => simp [wrapApplies, Node.isNull] at h
  | typeCast a t2 => simp [wrapApplies, Node.isTypeCast] at h
  | aExpr nm l r loc =>
    rcases op with _ | o
    · simp [wrapApplies] at h
    · simp [wrapApplies, operandMatches] at h
  | funcCall f args loc =>
    rcases op with _ | o
    · simp [wrapApplies] at h
    · simp [wrapApplies, operandMatches] at h
  | aConst v =>
    rcases op with _ | o
    · simp [wrapApplies] at h
    · simp [wrapApplies, operandMatches] at h
  | otherNode =>
    rcases op with _ | o
    · simp [wrapApplies] at h
    · simp [wrapApplies, operandMatches] at h

theorem wrapApplies_typeCast (op : Option ColumnOperand) (n : Node) (ty : String) :
    wrapApplies op (Node.typeCast n ty) = false := by
  simp [wrapApplies, Node.isTypeCast]

/-- One operand-processing step is stable under reprocessing. -/
theorem opTc_operand_step (op : Option ColumnOperand) (ty : String) (pos : OperandPos)
    (active : Bool) (l : Node)
    (ih : opTcNode op ty pos (opTcNode op ty pos l) = opTcNode op ty pos l) :
    (if active && wrapApplies op
          (if active && wrapApplies op l then Node.typeCast l ty else opTcNode op ty pos l)
        then Node.typeCast
          (if active && wrapApplies op l then Node.typeCast l ty else opTcNode op ty pos l) ty
        else opTcNode op ty pos
          (if active && wrapApplies op l then Node.typeCast l ty else opTcNode op ty pos l)) =
      (if active && wrapApplies op l then Node.typeCast l ty else opTcNode op ty pos l) := by
  cases active with
  | false =>
    simp only [Bool.false_and, if_neg (by simp : ¬(false = true))]
    simpa using ih
  | true =>
    simp only [Bool.true_and]
    by_cases hw : wrapApplies op l = true
    · rw [if_pos hw, wrapApplies_typeCast]
      simp only [Bool.false_eq_true, if_false]
      rw [opTcNode, opTc_of_wrapApplies op ty pos l hw]
    · rw [if_neg hw, wrapApplies_opTc]
      rw [if_neg hw]
      exact ih

mutual
theorem opTcNode_idem (op : Option ColumnOperand) (ty : String) (pos : OperandPos) :
    (t : Node) → opTcNode op ty pos (opTcNode op ty pos t) = opTcNode op ty pos t
  | .null => rfl
  | .columnRef fields => rfl
  | .aConst v => rfl
  | .otherNode => rfl
  | .typeCast a t2 => by
    rw [opTcNode, opTcNode, opTcNode_idem op ty pos a]
  | .funcCall f args loc => by
    rw [opTcNode, opTcNode, opTcList_idem op ty pos args]
  | .aExpr nm l r loc => by
    rw [opTcNode, opTcNode, Node.aExpr.injEq]
    exact ⟨rfl,
      opTc_operand_step op ty pos (pos == OperandPos.left) l (opTcNode_idem op ty pos l),
      opTc_operand_step op ty pos (pos == OperandPos.right) r (opTcNode_idem op ty pos r),
      rfl⟩
theorem opTcList_idem (op : Option ColumnOperand) (ty : String) (pos : OperandPos) :
    (l : NodeList) → opTcList op ty pos (opTcList op ty pos l) = opTcList op ty pos l
  | .nil => rfl
  | .cons h t => by
    rw [opTcList, opTcList, opTcNode_idem op ty pos h, opTcList_idem op ty pos t]
end

/-- `location >= 0 && location + 1 == error_pos`. -/
def locMatches (ep loc : Int) : Bool := decide (0 ≤ loc) && decide (loc + 1 = ep)

/-- The argument at the target index can be wrapped: present, not already a
cast node, not null. -/
def fnArgWrappable : Option Node → Bool
  | some n => !n.isTypeCast && !n.isNull
  | none => false

/-- Whether `function_typecast_walker` mutates this `FuncCall`. -/
def fnWrapGuard (ep : Int) (idx : Nat) (args : NodeList) (loc : Int) : Bool :=
  locMatches ep loc && !args.isNil && decide (idx < args.length) &&
    fnArgWrappable (args.getAt idx)

mutual
/-- `function_typecast_walker` applied through the whole tree: wrap the
argument at `idx` of the `FuncCall` whose location matches the error position,
skipping that call's children afterwards; recurse everywhere else. -/
def fnTcNode (ep : Int) (idx : Nat) (ty : String) : Node → Node
  | .funcCall f args loc =>
    if fnWrapGuard ep idx args loc then .funcCall f (args.wrapAt idx ty) loc
    else .funcCall f (fnTcList ep idx ty args) loc
  | .aExpr nm l r loc => .aExpr nm (fnTcNode ep idx ty l) (fnTcNode ep idx ty r) loc
  | .typeCast a t2 => .typeCast (fnTcNode ep idx ty a) t2
  | .columnRef fields => .columnRef fields
  | .null => .null
  | .aConst v => .aConst v
  | .otherNode => .otherNode
def fnTcList (ep : Int) (idx : Nat) (ty : String) : NodeList → NodeList
  | .nil => .nil
  | .cons h t => .cons (fnTcNode ep idx ty h) (fnTcList ep idx ty t)
end

mutual
/-- Number of `FuncCall` nodes whose location matches the error position. -/
def countMatchNode (ep : Int) : Node → Nat
  | .funcCall _ args loc => (if locMatches ep loc then 1 else 0) + countMatchList ep args
  | .aExpr _ l r _ => countMatchNode ep l + countMatchNode ep r
  | .typeCast a _ => countMatchNode ep a
  | .columnRef _ => 0
  | .null => 0
  | .aConst _ => 0
  | .otherNode => 0
def countMatchList (ep : Int) : NodeList → Nat
  | .nil => 0
  | .cons h t => countMatchNode ep h + countMatchList ep t
end

theorem fnTc_isTypeCast (ep : Int) (idx : Nat) (ty : String) (n : Node) :
    (fnTcNode ep idx ty n).isTypeCast = n.isTypeCast := by
  cases n with
  | funcCall f args loc =>
    rw [fnTcNode]
    split <;> rfl
  | _ => rfl

theorem fnTc_isNull (ep : Int) (idx : Nat) (ty : String) (n : Node) :
    (fnTcNode ep idx ty n).isNull = n.isNull := by
  cases n with
  | funcCall f args loc =>
    rw [fnTcNode]
    split <;> rfl
  | _ => rfl

theorem fnTcList_isNil (ep : Int) (idx : Nat) (ty : String) (l : NodeList) :
    (fnTcList ep idx ty l).isNil = l.isNil := by
  cases l <;> rfl

theorem fnTcList_length (ep : Int) (idx : Nat) (ty : String) :
    (l : NodeList) → (fnTcList ep idx ty l).length = l.length
  | .nil => rfl
  | .cons h t => by
    rw [fnTcList, NodeList.length, NodeList.length, fnTcList_length ep idx ty t]

theorem fnTcList_getAt (ep : Int) (idx : Nat) (ty : String) :
    (l : NodeList) → (i : Nat) →
      (fnTcList ep idx ty l).getAt i = (l.getAt i).map (fnTcNode ep idx ty)
  | .nil, _ => rfl
  | .cons h t, 0 => rfl
  | .cons h t, n + 1 => by
    rw [fnTcList, NodeList.getAt, NodeList.getAt, fnTcList_getAt ep idx ty t n]

theorem wrapAt_length (ty : String) :
    (l : NodeList) → (i : Nat) → (l.wrapAt i ty).length = l.length
  | .nil, _ => rfl
  | .cons h t, 0 => rfl
  | .cons h t, n + 1 => by
    rw [NodeList.wrapAt, NodeList.length, NodeList.length, wrapAt_length ty t n]

theorem wrapAt_getAt_self (ty : String) :
    (l : NodeList) → (i : Nat) →
      (l.wrapAt i ty).getAt i = (l.getAt i).map (fun n => Node.typeCast n ty)
  | .nil, _ => rfl
  | .cons h t, 0 => rfl
  | .cons h t, n + 1 => by
    rw [NodeList.wrapAt, NodeList.getAt, NodeList.getAt, wrapAt_getAt_self ty t n]

theorem countMatch_wrapAt (ep : Int) (ty : String) :
    (l : NodeList) → (i : Nat) → countMatchList ep (l.wrapAt i ty) = countMatchList ep l
  | .nil, _ => rfl
  | .cons h t, 0 => by
    rw [NodeList.wrapAt, countMatchList, countMatchList, countMatchNode]
  | .cons h t, n + 1 => by
    rw [NodeList.wrapAt, countMatchList, countMatchList, countMatch_wrapAt ep ty t n]

theorem getAt_isSome_of_lt :
    (l : NodeList) → (i : Nat) → i < l.length → (l.getAt i).isSome = true
  | .cons h t, 0, _ => rfl
  | .cons h t, n + 1, hlt => by
    rw [NodeList.getAt]
    exact getAt_isSome_of_lt t n (by
      rw [NodeList.length] at hlt
      omega)

theorem fnArgWrappable_fnTc (ep : Int) (idx : Nat) (ty : String) (o : Option Node) :
    fnArgWrappable (o.map (fnTcNode ep idx ty)) = fnArgWrappable o := by
  cases o with
  | none => rfl
  | some n =>
    show fnArgWrappable (some (fnTcNode ep idx ty n)) = _
    rw [fnArgWrappable, fnArgWrappable, fnTc_isTypeCast, fnTc_isNull]

/-- The walker's guard is unchanged by processing the argument list. -/
theorem fnWrapGuard_fnTcList (ep : Int) (idx : Nat) (ty : String)
    (args : NodeList) (loc : Int) :
    fnWrapGuard ep idx (fnTcList ep idx ty args) loc = fnWrapGuard ep idx args loc := by
  rw [fnWrapGuard, fnWrapGuard, fnTcList_isNil, fnTcList_length, fnTcList_getAt,
    fnArgWrappable_fnTc]

/-- After wrapping, the guard is off: the target argument is a cast node. -/
theorem fnWrapGuard_wrapAt (ep : Int) (idx : Nat) (ty : String)
    (args : NodeList) (loc : Int) (hlt : idx < args.length) :
    fnWrapGuard ep idx (args.wrapAt idx ty) loc = false := by
  rw [fnWrapGuard, wrapAt_getAt_self]
  have hsome := getAt_isSome_of_lt args idx hlt
  obtain ⟨a, ha⟩ := Option.isSome_iff_exists.mp hsome
  rw [ha]
  show (_ && _ && _ && fnArgWrappable (some (Node.typeCast a ty))) = false
  rw [fnArgWrappable]
  simp [Node.isTypeCast]

mutual
/-- A subtree containing no location-matching call is untouched. -/
theorem fnTcNode_clean (ep : Int) (idx : Nat) (ty : String) :
    (t : Node) → countMatchNode ep t = 0 → fnTcNode ep idx ty t = t
  | .null, _ => rfl
  | .columnRef fields, _ => rfl
  | .aConst v, _ => rfl
  | .otherNode, _ => rfl
  | .typeCast a t2, h => by
    rw [fnTcNode, fnTcNode_clean ep idx ty a (by rw [countMatchNode] at h; omega)]
  | .aExpr nm l r loc, h => by
    rw [countMatchNode] at h
    rw [fnTcNode, fnTcNode_clean ep idx ty l (by omega), fnTcNode_clean ep idx ty r (by omega)]
  | .funcCall f args loc, h => by
    rw [countMatchNode] at h
    have hloc : locMatches ep loc = false := by
      by_cases hl : locMatches ep loc = true
      · rw [if_pos hl] at h
        omega
      · exact Bool.not_eq_true _ ▸ (by simpa using hl)
    have hguard : fnWrapGuard ep idx args loc = false := by
      rw [fnWrapGuard, hloc]
      rfl
    rw [fnTcNode, hguard]
    simp only [Bool.false_eq_true, if_false]
    rw [fnTcList_clean ep idx ty args (by rw [hloc] at h; simpa using h)]
theorem fnTcList_clean (ep : Int) (idx : Nat) (ty : String) :
    (l : NodeList) → countMatchList ep l = 0 → fnTcList ep idx ty l = l
  | .nil, _ => rfl
  | .cons h t, hc => by
    rw [countMatchList] at hc
    rw [fnTcList, fnTcNode_clean ep idx ty h (by omega), fnTcList_clean ep idx ty t (by omega)]
end

mutual
/-- Idempotence of the function-argument typecast walker, provided at most one
`FuncCall` in the tree carries the error location (locations of distinct
calls in a parsed statement are distinct). -/
theorem fnTcNode_idem (ep : Int) (idx : Nat) (ty : String) :
    (t : Node) → countMatchNode ep t ≤ 1 →
      fnTcNode ep idx ty (fnTcNode ep idx ty t) = fnTcNode ep idx ty t
  | .null, _ => rfl
  | .columnRef fields, _ => rfl
  | .aConst v, _ => rfl
  | .otherNode, _ => rfl
  | .typeCast a t2, h => by
    rw [fnTcNode, fnTcNode, fnTcNode_idem ep idx ty a (by rw [countMatchNode] at h; omega)]
  | .aExpr nm l r loc, h => by
    rw [countMatchNode] at h
    rw [fnTcNode, fnTcNode, fnTcNode_idem ep idx ty l (by omega),
      fnTcNode_idem ep idx ty r (by omega)]
  | .funcCall f args loc, h => by
    rw [countMatchNode] at h
    by_cases hg : fnWrapGuard ep idx args loc = true
    · have hloc : locMatches ep loc = true := by
        rw [fnWrapGuard] at hg
        simp only [Bool.and_eq_true] at hg
        exact hg.1.1.1
      have hlt : idx < args.length := by
        rw [fnWrapGuard] at hg
        simp only [Bool.and_eq_true, decide_eq_true_eq] at hg
        exact hg.1.2
      have hcl : countMatchList ep args = 0 := by
        rw [if_pos hloc] at h
        omega
      rw [fnTcNode, if_pos hg, fnTcNode, fnWrapGuard_wrapAt ep idx ty args loc hlt]
      simp only [Bool.false_eq_true, if_false]
      rw [fnTcList_clean ep idx ty _ (by rw [countMatch_wrapAt]; exact hcl)]
    · have hgf : fnWrapGuard ep idx args loc = false := by simpa using hg
      have hcl : countMatchList ep args ≤ 1 := by
        by_cases hl : locMatches ep loc = true
        · rw [if_pos hl] at h
          omega
        · omega
      rw [fnTcNode, hgf]
      simp only [Bool.false_eq_true, if_false]
      rw [fnTcNode, fnWrapGuard_fnTcList, hgf]
      simp only [Bool.false_eq_true, if_false]
      rw [fnTcList_idem ep idx ty args hcl]
theorem fnTcList_idem (ep : Int) (idx : Nat) (ty : String) :
    (l : NodeList) → countMatchList ep l ≤ 1 →
      fnTcList ep idx ty (fnTcList ep idx ty l) = fnTcList ep idx ty l
  | .nil, _ => rfl
  | .cons h t, hc => by
    rw [countMatchList] at hc
    rw [fnTcList, fnTcList, fnTcNode_idem ep idx ty h (by omega),
      fnTcList_idem ep idx ty t (by omega)]
end

/-- C8: the typecast mutators are idempotent.  Wrapping is guarded by
`type_ != T_TypeCast`, so applying the same typecast edit twice at the same
site equals applying it once: unconditionally for the operand walker, and for
the function-argument walker whenever at most one `FuncCall` in the tree
carries the error location (distinct calls in a parsed statement have
distinct locations). -/
theorem c8_typecast_walkers_idempotent (op : Option ColumnOperand) (ty : String)
    (pos : OperandPos) (ep : Int) (idx : Nat) (fty : String) (t u : Node)
    (h : countMatchNode ep u ≤ 1) :
    opTcNode op ty pos (opTcNode op ty pos t) = opTcNode op ty pos t ∧
    fnTcNode ep idx fty (fnTcNode ep idx fty u) = fnTcNode ep idx fty u :=
  ⟨opTcNode_idem op ty pos t, fnTcNode_idem ep idx fty u h⟩

/-- C8 witness: a `a = '1'` expression with its left operand wrapped in a cast
to `text`, and a call `f(a)` at location 4 with its first argument wrapped in
a cast to `int`. -/
theorem c8_typecast_walkers_idempotent_witness :
    countMatchNode 5 (Node.funcCall "f" (NodeList.cons (Node.columnRef ["a"]) NodeList.nil) 4) ≤ 1 ∧
    (opTcNode (some ⟨none, "a"⟩) "text" OperandPos.left
        (opTcNode (some ⟨none, "a"⟩) "text" OperandPos.left
          (Node.aExpr "=" (Node.columnRef ["a"]) (Node.aConst "1") 0)) =
      opTcNode (some ⟨none, "a"⟩) "text" OperandPos.left
        (Node.aExpr "=" (Node.columnRef ["a"]) (Node.aConst "1") 0) ∧
      fnTcNode 5 0 "int"
          (fnTcNode 5 0 "int"
            (Node.funcCall "f" (NodeList.cons (Node.columnRef ["a"]) NodeList.nil) 4)) =
        fnTcNode 5 0 "int"
          (Node.funcCall "f" (NodeList.cons (Node.columnRef ["a"]) NodeList.nil) 4)) :=
  ⟨by decide,
    c8_typecast_walkers_idempotent (some ⟨none, "a"⟩) "text" OperandPos.left 5 0 "int"
      (Node.aExpr "=" (Node.columnRef ["a"]) (Node.aConst "1") 0)
      (Node.funcCall "f" (NodeList.cons (Node.columnRef ["a"]) NodeList.nil) 4) (by decide)⟩

/-! ## C10: operand typecast refinement is off by default
(src/gucs/parser.rs line 24, src/safeql/search.rs lines 80-205)

`process_operand_refinements_for_expressions` — the dispatcher invoked for an
operator-type-mismatch analyzer error — pushes four candidate families, each
guarded by its GUC flag.  The generators are oracles returning
`(priority, tree)` pairs (trees abstracted as `Nat`); each pushed candidate is
tagged with the family that produced it. -/

inductive OperandRefTag where
  | operandColumn
  | operandTableForColumn
  | operandColTableRef
  | operandTypecast
  deriving DecidableEq

/-- The four `ENABLE_OPERAND_*` flags consulted by the dispatcher. -/
structure OperandFlags where
  operandColumn : Bool
  operandTableForColumn : Bool
  operandColTableRef : Bool
  operandTypecast : Bool

/-- The shipped defaults (gucs/parser.rs lines 21-24): all `true` except
`ENABLE_OPERAND_TYPECAST_REFINEMENT`. -/
def defaultOperandFlags : OperandFlags :=
  ⟨true, true, true, ENABLE_OPERAND_TYPECAST_REFINEMENT_DEFAULT⟩

/-- `process_operand_table_refinements` (search.rs, lines 149-205): the
table-for-column family (qualified or catalog-wide) and the column-table
reference family for one operand. -/
def processOperandTableRefinements (flags : OperandFlags)
    (tblColGen : String → List (Int × Nat)) (tblAllGen : List (Int × Nat))
    (refGen : Option String → String → List (Int × Nat))
    (tableName : Option String) (columnName : String) :
    List (Int × OperandRefTag × Nat) :=
  (if flags.operandTableForColumn then
    match tableName with
    | some t => (tblColGen t).map fun c => (c.1, OperandRefTag.operandTableForColumn, c.2)
    | none => tblAllGen.map fun c => (c.1, OperandRefTag.operandTableForColumn, c.2)
  else []) ++
  (if flags.operandColTableRef then
    if tableName.isSome then
      (refGen tableName columnName).map fun c => (c.1, OperandRefTag.operandColTableRef, c.2)
    else []
  else [])

/-- `process_operand_refinements_for_expressions` (search.rs, lines 80-146):
per expression whose operands were extracted, push the operand-column family,
the per-operand table families, and — only under
`ENABLE_OPERAND_TYPECAST_REFINEMENT` — the typecast-wrap family. -/
def processOperandRefinementsForExpressions (flags : OperandFlags)
    (exprs : List (Option (Option ColumnOperand × Option ColumnOperand)))
    (colGen tcGen : Option ColumnOperand → Option ColumnOperand → List (Int × Nat))
    (tblColGen : String → List (Int × Nat)) (tblAllGen : List (Int × Nat))
    (refGen : Option String → String → List (Int × Nat)) :
    List (Int × OperandRefTag × Nat) :=
  exprs.foldr (fun eo acc =>
    match eo with
    | none => acc
    | some (leftOp, rightOp) =>
      (if flags.operandColumn then
        (colGen leftOp rightOp).map fun c => (c.1, OperandRefTag.operandColumn, c.2)
      else []) ++
      (match leftOp with
        | some o =>
          processOperandTableRefinements flags tblColGen tblAllGen refGen o.tableName o.columnName
        | none => []) ++
      (match rightOp with
        | some o =>
          processOperandTableRefinements flags tblColGen tblAllGen refGen o.tableName o.columnName
        | none => []) ++
      (if flags.operandTypecast then
        (tcGen leftOp rightOp).map fun c => (c.1, OperandRefTag.operandTypecast, c.2)
      else []) ++
      acc) []

theorem all_map_tag (tag : OperandRefTag)
    (htag : (!(tag == OperandRefTag.operandTypecast)) = true) (l : List (Int × Nat)) :
    ((l.map fun c => (c.1, tag, c.2)).all
      fun c => !(c.2.1 == OperandRefTag.operandTypecast)) = true := by
  induction l with
  | nil => rfl
  | cons h t ih => simp only [List.map_cons, List.all_cons, ih, htag, Bool.and_self]

theorem processOperandTableRefinements_no_typecast (flags : OperandFlags)
    (tblColGen : String → List (Int × Nat)) (tblAllGen : List (Int × Nat))
    (refGen : Option String → String → List (Int × Nat))
    (tableName : Option String) (columnName : String) :
    ((processOperandTableRefinements flags tblColGen tblAllGen refGen tableName
        columnName).all fun c => !(c.2.1 == OperandRefTag.operandTypecast)) = true := by
  rw [processOperandTableRefinements.eq_def]
  rw [List.all_append, Bool.and_eq_true]
  constructor
  · split
    · split
      · exact all_map_tag _ (by decide) _
      · exact all_map_tag _ (by decide) _
    · rfl
  · split
    · split
      · exact all_map_tag _ (by decide) _
      · rfl
    · rfl

/-- C10: with the shipped defaults, `ENABLE_OPERAND_TYPECAST_REFINEMENT` is
`false`, so the operator-type-mismatch dispatcher generates no typecast-wrap
candidates for either operand — whatever the expressions and whatever the
generator oracles return. -/
theorem c10_operand_typecast_off_by_default
    (exprs : List (Option (Option ColumnOperand × Option ColumnOperand)))
    (colGen tcGen : Option ColumnOperand → Option ColumnOperand → List (Int × Nat))
    (tblColGen : String → List (Int × Nat)) (tblAllGen : List (Int × Nat))
    (refGen : Option String → String → List (Int × Nat)) :
    ENABLE_OPERAND_TYPECAST_REFINEMENT_DEFAULT = false ∧
    ((processOperandRefinementsForExpressions defaultOperandFlags exprs colGen tcGen
        tblColGen tblAllGen refGen).all
      fun c => !(c.2.1 == OperandRefTag.operandTypecast)) = true := by
  refine ⟨rfl, ?_⟩
  rw [processOperandRefinementsForExpressions]
  induction exprs with
  | nil => rfl
  | cons eo rest ih =>
    rw [List.foldr_cons]
    cases eo with
    | none => exact ih
    | some ops =>
      obtain ⟨leftOp, rightOp⟩ := ops
      simp only [List.all_append, Bool.and_eq_true]
      refine ⟨⟨⟨⟨?_, ?_⟩, ?_⟩, ?_⟩, ih⟩
      · split
        · exact all_map_tag _ (by decide) _
        · rfl
      · cases leftOp with
        | none => rfl
        | some o => exact processOperandTableRefinements_no_typecast _ _ _ _ _ _
      · cases rightOp with
        | none => rfl
        | some o => exact processOperandTableRefinements_no_typecast _ _ _ _ _ _
      · rfl

end SafeQL
